import Mathlib

/-!
Verification of the msh shell (src/msh.c): a shallow embedding of the
tokenizer (`parse_tokens`), the circular history log, and the command
dispatcher (`run_command_string`), together with theorems about the
claims of the specification.
-/

namespace Msh

/-- `MAX_COMMAND_SIZE` from msh.c. -/
def MAX_COMMAND_SIZE : Nat := 255

/-- `MAX_NUM_ARGUMENTS` from msh.c. -/
def MAX_NUM_ARGUMENTS : Nat := 10

/-- `HISTORY_SIZE` from msh.c. -/
def HISTORY_SIZE : Nat := 15

/-- The WHITESPACE delimiters of msh.c: space, tab, newline. -/
def isWS (c : Char) : Bool := c = ' ' || c = '\t' || c = '\n'

/-- The segments produced by repeatedly calling `strsep` with the WHITESPACE
delimiters until it returns NULL: the input is cut at every single delimiter
character, empty segments included.  `strsep` on the empty string yields one
empty segment. -/
def strsepAll : List Char → List (List Char)
  | [] => [[]]
  | c :: rest =>
    if isWS c then
      [] :: strsepAll rest
    else
      match strsepAll rest with
      | [] => [[c]]
      | t :: ts => (c :: t) :: ts

/-- One slot of the global `token` array: `strndup(argument_ptr, MAX_COMMAND_SIZE)`
for a non-empty segment, and NULL (the segment is freed again) for an empty one. -/
def mkToken (w : List Char) : Option String :=
  if w = [] then none else some (String.mk (w.take MAX_COMMAND_SIZE))

/-- `parse_tokens` from msh.c: the first `MAX_NUM_ARGUMENTS` strsep segments
are stored (empty segments as NULL), and every slot from the last parsed
token to the end of the array is set to NULL. -/
def parse_tokens (command_string : String) : List (Option String) :=
  let toks := ((strsepAll command_string.toList).take MAX_NUM_ARGUMENTS).map mkToken
  toks ++ List.replicate (MAX_NUM_ARGUMENTS - toks.length) none

/-- `token[0]`, the first word of the most recently parsed line. -/
def firstTok (line : String) : Option String := (parse_tokens line).headD none

/-- `struct command` from msh.c: the stored text (NULL when the slot is free)
and the pid of the spawned process. -/
structure Command where
  cmd : Option String
  pid : Int
  deriving Repr, DecidableEq

/-- The mutable state of the shell: the history ring buffer with its cursor
`hist_ptr` (starts at -1), plus a count of external launches so far (used to
index the pid oracle) and the current working directory. -/
structure ShellState where
  hist_ptr : Int
  history : Nat → Command
  launches : Nat
  cwd : String

/-- `history[i]` for an index held in a C integer variable. -/
def ShellState.histAt (s : ShellState) (i : Int) : Command := s.history i.toNat

/-- The initial state: `hist_ptr = -1`, zero-initialized history array. -/
def initState : ShellState :=
  { hist_ptr := -1
    history := fun _ => { cmd := none, pid := 0 }
    launches := 0
    cwd := "" }

/-- The slot the next append writes: `hist_ptr += 1; if (hist_ptr == HISTORY_SIZE) hist_ptr = 0;`. -/
def nextPtr (s : ShellState) : Int :=
  if s.hist_ptr + 1 = (HISTORY_SIZE : Int) then 0 else s.hist_ptr + 1

/-- Appending a line to the history (msh.c lines 253-268): advance the cursor,
store a strdup of the line with pid -1, freeing the slot's previous occupant. -/
def appendRecord (s : ShellState) (command_string : String) : ShellState :=
  let p := nextPtr s
  { s with
      hist_ptr := p
      history := Function.update s.history p.toNat { cmd := some command_string, pid := -1 } }

/-- C `isspace` in the default locale, as consulted by `strtoul`. -/
def isCSpace (c : Char) : Bool :=
  c = ' ' || c = '\t' || c = '\n' || c = '\x0b' || c = '\x0c' || c = '\r'

/-- Value of a string of decimal digits. -/
def decVal (l : List Char) : Nat :=
  l.foldl (fun a c => a * 10 + (c.toNat - 48)) 0

/-- `ULONG_MAX` on the 64-bit platform msh targets. -/
def ULONG_MAX : Nat := 2 ^ 64 - 1

/-- `strtoul(s, &endp, 10)`: skip C whitespace, accept an optional sign, read
decimal digits; if the digit value overflows unsigned long the result is
ULONG_MAX regardless of any sign, otherwise a leading minus negates the value
modulo 2^64; on success return the value and the rest of the string (`endp`),
and if no digits were read return 0 with `endp` at the start of the input. -/
def strtoul10 (s : List Char) : Nat × List Char :=
  let sp := s.dropWhile isCSpace
  let neg : Bool := sp.headD ' ' = '-'
  let body := if sp.headD ' ' = '-' || sp.headD ' ' = '+' then sp.drop 1 else sp
  let ds := body.takeWhile Char.isDigit
  if ds = [] then (0, s)
  else
    let v := decVal ds
    let r := if ULONG_MAX < v then ULONG_MAX
             else if neg then (2 ^ 64 - v) % 2 ^ 64 else v
    (r, body.drop ds.length)

/-- The index arithmetic of the `!N` branch (msh.c lines 223-240): translate a
validated logical history index to a physical slot (offsetting by
`hist_ptr + 1` once the buffer has wrapped) and read that slot's text. -/
def logicalToText (s : ShellState) (n : Nat) : Option String :=
  let hist : Int :=
    if s.hist_ptr ≠ (HISTORY_SIZE : Int) - 1 ∧ (s.histAt (s.hist_ptr + 1)).cmd ≠ none then
      let h := (n : Int) + s.hist_ptr + 1
      if (HISTORY_SIZE : Int) ≤ h then h - (HISTORY_SIZE : Int) else h
    else (n : Int)
  (s.histAt hist).cmd

/-- The external collaborators of the dispatcher: the HOME environment
variable, the success of `chdir` on a given path, and the pid returned by the
n-th `fork`/`execvp` launch. -/
structure SysEnv where
  home : Option String
  chdirOk : String → Bool
  pids : Nat → Int

/-- Observable effects of one dispatch. -/
inductive Event where
  | notInHistory
  | invalidRef (r : String)
  | cdTooManyArgs
  | cdFailed (dir : Option String)
  | printedHistory (showpid : Bool)
  | launched (argv : List (Option String)) (pid : Int)
  | nullDeref
  | fuelOut
  deriving Repr, DecidableEq

/-- `run_command_string` from msh.c, with a fuel parameter bounding the
recursion depth of history re-expansion (the C recursion is unbounded only on
states the shell can never reach).  The function re-tokenizes its argument the
way every C call site runs `parse_tokens` immediately before the call. -/
def runCommandString (env : SysEnv) : Nat → ShellState → String → ShellState × List Event
  | 0, s, _ => (s, [Event.fuelOut])
  | fuel + 1, s, command_string =>
    match (parse_tokens command_string).headD none with
    | none => (s, [Event.nullDeref])
    | some cmd =>
      if cmd.toList.headD ' ' = '!' then
        if (cmd.toList.drop 1).headD ' ' = '!' then
          -- `!!`-prefixed word: re-run the most recent command
          if s.hist_ptr = -1 then (s, [Event.notInHistory])
          else
            match (s.histAt s.hist_ptr).cmd with
            | none => (s, [Event.nullDeref])
            | some t => runCommandString env fuel s t
        else
          -- `!N`: parse and validate the reference, then resolve it
          let rest := cmd.toList.drop 1
          let pr := strtoul10 rest
          if pr.2 ≠ [] ∨ (HISTORY_SIZE : Nat) ≤ pr.1 then
            (s, [Event.invalidRef (String.mk rest)])
          else
            match logicalToText s pr.1 with
            | none => (s, [Event.notInHistory])
            | some t => runCommandString env fuel s t
      else
        -- not a `!` command: append to the history, then dispatch
        let s1 := appendRecord s command_string
        if cmd = "history" then
          (s1, [Event.printedHistory (decide ((parse_tokens command_string).getD 1 none = some "-p"))])
        else if cmd = "cd" then
          if (parse_tokens command_string).getD 2 none ≠ none then
            (s1, [Event.cdTooManyArgs])
          else
            match
              (match (parse_tokens command_string).getD 1 none with
               | some d => some d
               | none => env.home) with
            | none => (s1, [Event.cdFailed none])
            | some d =>
              if env.chdirOk d then ({ s1 with cwd := d }, [])
              else (s1, [Event.cdFailed (some d)])
        else
          let pid := env.pids s1.launches
          ({ s1 with
              history := Function.update s1.history s1.hist_ptr.toNat
                { s1.history s1.hist_ptr.toNat with pid := pid }
              launches := s1.launches + 1 },
           [Event.launched (parse_tokens command_string) pid])

/-- One iteration of the read-eval loop in `main` (msh.c lines 308-339), given
the line `fgets` produced: skip a line whose first character is a newline,
tokenize, compare `token[0]` against quit/exit (dereferencing NULL if no word
was produced), and otherwise dispatch.  Returns the new state, the events, and
whether the loop breaks. -/
def mainStep (env : SysEnv) (fuel : Nat) (s : ShellState) (line : String) :
    ShellState × List Event × Bool :=
  if line.toList.headD ' ' = '\n' then (s, [], false)
  else
    match (parse_tokens line).headD none with
    | none => (s, [Event.nullDeref], false)
    | some cmd =>
      if cmd = "quit" ∨ cmd = "exit" then (s, [], true)
      else
        let r := runCommandString env fuel s line
        (r.1, r.2, false)

/-- The state after the read-eval loop has consumed a sequence of input lines. -/
def runLines (env : SysEnv) (fuel : Nat) (lines : List String) : ShellState :=
  lines.foldl (fun s l => (mainStep env fuel s l).1) initState

/-- The state reached from `initState` by appending the given lines in order. -/
def appendAll (texts : List String) : ShellState := texts.foldl appendRecord initState

/-- Number of live records: slots whose stored text is not NULL. -/
def countVisible (s : ShellState) : Nat :=
  ((List.range HISTORY_SIZE).filter (fun j => (s.history j).cmd.isSome)).length

/-- The texts of all live records, by physical slot order. -/
def textsOf (s : ShellState) : List String :=
  (List.range HISTORY_SIZE).filterMap (fun j => (s.history j).cmd)

/-- A stored text as the dispatcher produces it: its first character exists,
is not a tokenizing whitespace character, and is not `!`. -/
def storedOk (t : String) : Prop :=
  isWS (t.toList.headD ' ') = false ∧ t.toList.headD ' ' ≠ '!'

/-- Invariant of every state the shell can reach: the cursor stays in range,
the record the cursor points at is live, and every live text could have been
appended by the dispatcher (in particular, none begins with `!`). -/
def Inv (s : ShellState) : Prop :=
  -1 ≤ s.hist_ptr ∧ s.hist_ptr < (HISTORY_SIZE : Int) ∧
  (∀ t ∈ textsOf s, storedOk t) ∧
  (s.hist_ptr ≠ -1 → (s.histAt s.hist_ptr).cmd ≠ none)

/-- A concrete environment in which every `chdir` fails. -/
def env0 : SysEnv :=
  { home := some "/root", chdirOk := fun _ => false, pids := fun n => 100 + n }

/-- A concrete environment in which every `chdir` succeeds. -/
def env1 : SysEnv :=
  { home := some "/root", chdirOk := fun _ => true, pids := fun n => 100 + n }

/-! ### Tokenizer lemmas -/

theorem strsepAll_ne_nil (l : List Char) : strsepAll l ≠ [] := by
  induction l with
  | nil => simp [strsepAll]
  | cons c rest ih =>
    simp only [strsepAll]
    split
    · simp
    · rcases h : strsepAll rest with _ | ⟨t, ts⟩ <;> simp

theorem strsepAll_eq_splitOnP (l : List Char) : strsepAll l = l.splitOnP isWS := by
  induction l with
  | nil => simp [strsepAll, List.splitOnP_nil]
  | cons c rest ih =>
    rw [List.splitOnP_cons]
    simp only [strsepAll]
    by_cases h : isWS c
    · rw [if_pos h, if_pos h, ih]
    · rw [if_neg h, if_neg h]
      rcases heq : strsepAll rest with _ | ⟨t, ts⟩
      · exact absurd heq (strsepAll_ne_nil rest)
      · rw [← ih, heq]
        simp [List.modifyHead]

theorem strsepAll_headD (l : List Char) :
    (strsepAll l).headD [] = l.takeWhile (fun c => !isWS c) := by
  induction l with
  | nil => simp [strsepAll]
  | cons c rest ih =>
    simp only [strsepAll]
    by_cases h : isWS c
    · rw [if_pos h, List.takeWhile_cons]
      simp [h]
    · rw [if_neg h, List.takeWhile_cons]
      rcases heq : strsepAll rest with _ | ⟨t, ts⟩
      · exact absurd heq (strsepAll_ne_nil rest)
      · rw [heq] at ih
        simp only [List.headD_cons] at ih
        simp [h, ih]

theorem parse_tokens_eq (line : String) :
    parse_tokens line =
      ((line.toList.splitOnP isWS).take MAX_NUM_ARGUMENTS).map mkToken ++
        List.replicate (MAX_NUM_ARGUMENTS -
          ((line.toList.splitOnP isWS).take MAX_NUM_ARGUMENTS).length) none := by
  simp [parse_tokens, strsepAll_eq_splitOnP]

theorem parse_tokens_length (line : String) :
    (parse_tokens line).length = MAX_NUM_ARGUMENTS := by
  simp only [parse_tokens, List.length_append, List.length_map, List.length_replicate,
    List.length_take]
  omega

theorem getD_replicate_none (k i : Nat) :
    (List.replicate k (none : Option String)).getD i none = none := by
  rw [List.getD_eq_getElem?_getD, List.getElem?_replicate]
  split <;> rfl

theorem parse_tokens_getD (line : String) (j : Nat) :
    (parse_tokens line).getD j none =
      mkToken (((line.toList.splitOnP isWS).take MAX_NUM_ARGUMENTS).getD j []) := by
  rw [parse_tokens_eq]
  by_cases hj2 : j < ((line.toList.splitOnP isWS).take MAX_NUM_ARGUMENTS).length
  · rw [List.getD_append _ _ _ _ (by simpa using hj2)]
    rw [List.getD_eq_getElem?_getD, List.getElem?_map, List.getElem?_eq_getElem hj2]
    rw [List.getD_eq_getElem?_getD, List.getElem?_eq_getElem hj2]
    rfl
  · rw [List.getD_append_right _ _ _ _ (by simpa using Nat.le_of_not_lt hj2)]
    rw [getD_replicate_none, List.getD_eq_default _ _ (Nat.le_of_not_lt hj2)]
    rfl

theorem firstTok_eq (line : String) :
    firstTok line = mkToken (line.toList.takeWhile (fun c => !isWS c)) := by
  have h0 := strsepAll_ne_nil line.toList
  have h1 := strsepAll_headD line.toList
  obtain ⟨a, as, heq⟩ := List.exists_cons_of_ne_nil h0
  rw [heq] at h1
  simp only [List.headD_cons] at h1
  unfold firstTok parse_tokens
  rw [heq, ← h1]
  have htake : (a :: as).take MAX_NUM_ARGUMENTS = a :: as.take (MAX_NUM_ARGUMENTS - 1) := rfl
  rw [htake]
  simp

theorem mkToken_cons (c : Char) (w : List Char) :
    mkToken (c :: w) = some (String.mk (c :: w.take (MAX_COMMAND_SIZE - 1))) := by
  have htake : (c :: w).take MAX_COMMAND_SIZE = c :: w.take (MAX_COMMAND_SIZE - 1) := rfl
  simp [mkToken, htake]

/-- If tokenization produced a first word at all, that word is non-empty, its
first character is the line's first character, and that character is not
tokenizing whitespace. -/
theorem firstTok_some {line cmd : String} (h : firstTok line = some cmd) :
    cmd ≠ "" ∧ cmd.toList.headD ' ' = line.toList.headD ' ' ∧
      isWS (line.toList.headD ' ') = false := by
  rw [firstTok_eq] at h
  rcases hl : line.toList with _ | ⟨c, rest⟩
  · rw [hl] at h; simp [mkToken] at h
  · rw [hl, List.takeWhile_cons] at h
    by_cases hc : isWS c
    · simp [hc, mkToken] at h
    · rw [Bool.not_eq_true] at hc
      rw [hc] at h
      simp only [Bool.not_false, if_true] at h
      rw [mkToken_cons] at h
      have hcmd := Option.some.inj h
      subst hcmd
      refine ⟨?_, ?_, ?_⟩
      · intro he
        have := congrArg String.length he
        simp [String.length] at this
      · rfl
      · simpa using hc

/-! ### Ring buffer lemmas -/

theorem appendRecord_history (s : ShellState) (t : String) :
    (appendRecord s t).history =
      Function.update s.history (nextPtr s).toNat { cmd := some t, pid := -1 } := rfl

theorem appendRecord_hist_ptr (s : ShellState) (t : String) :
    (appendRecord s t).hist_ptr = nextPtr s := rfl

theorem appendRecord_launches (s : ShellState) (t : String) :
    (appendRecord s t).launches = s.launches := rfl

theorem appendAll_append (ts : List String) (t : String) :
    appendAll (ts ++ [t]) = appendRecord (appendAll ts) t := by
  simp [appendAll, List.foldl_append]

theorem appendAll_hist_ptr (ts : List String) :
    (appendAll ts).hist_ptr =
      if ts.length = 0 then -1 else (((ts.length - 1) % 15 : Nat) : Int) := by
  induction ts using List.reverseRecOn with
  | nil => simp [appendAll, initState]
  | append_singleton ts t ih =>
    rw [appendAll_append, appendRecord_hist_ptr, nextPtr, ih]
    simp only [HISTORY_SIZE, List.length_append, List.length_cons, List.length_nil]
    rw [if_neg (show ¬ (ts.length + 1 = 0) by omega)]
    rcases Nat.eq_zero_or_pos ts.length with hn | hn
    · rw [if_pos hn, if_neg (show ¬ ((-1 : Int) + 1 = ((15 : Nat) : Int)) by omega)]
      omega
    · rw [if_neg (show ¬ (ts.length = 0) by omega)]
      split_ifs with h <;> omega

theorem nextPtr_appendAll (ts : List String) :
    (nextPtr (appendAll ts)).toNat = ts.length % 15 := by
  rw [nextPtr, appendAll_hist_ptr]
  simp only [HISTORY_SIZE]
  rcases Nat.eq_zero_or_pos ts.length with hn | hn
  · rw [if_pos hn, if_neg (show ¬ ((-1 : Int) + 1 = ((15 : Nat) : Int)) by omega)]
    omega
  · rw [if_neg (show ¬ (ts.length = 0) by omega)]
    split_ifs with h <;> omega

/-- The physical-to-logical source map: after `k` appends, physical slot `j`
(when live) holds the text of append number `slotSrc k j` (0-based). -/
def slotSrc (k j : Nat) : Nat := k - 1 - ((15 + (k - 1) % 15 - j) % 15)

theorem appendAll_history (ts : List String) (j : Nat) (hj : j < 15) :
    ((appendAll ts).history j).cmd =
      if j < min ts.length 15
      then some (ts.getD (slotSrc ts.length j) "")
      else none := by
  induction ts using List.reverseRecOn with
  | nil => simp [appendAll, initState]
  | append_singleton ts t ih =>
    rw [appendAll_append, appendRecord_history]
    have hp := nextPtr_appendAll ts
    simp only [List.length_append, List.length_cons, List.length_nil, Nat.zero_add]
    by_cases hj2 : j = ts.length % 15
    · have hup : Function.update (appendAll ts).history (nextPtr (appendAll ts)).toNat
          { cmd := some t, pid := -1 } j = { cmd := some t, pid := -1 } := by
        rw [hp, hj2]
        exact Function.update_same _ _ _
      rw [hup]
      have h1 : j < min (ts.length + 1) 15 := by omega
      rw [if_pos h1]
      have hidx : slotSrc (ts.length + 1) j = ts.length := by
        simp only [slotSrc]
        omega
      rw [hidx, List.getD_append_right _ _ _ _ (Nat.le_refl _)]
      simp
    · have hup : Function.update (appendAll ts).history (nextPtr (appendAll ts)).toNat
          { cmd := some t, pid := -1 } j = (appendAll ts).history j := by
        rw [hp]
        exact Function.update_noteq hj2 _ _
      rw [hup, ih]
      by_cases h3 : j < min ts.length 15
      · have h4 : j < min (ts.length + 1) 15 := by omega
        rw [if_pos h3, if_pos h4]
        have hidx : slotSrc (ts.length + 1) j = slotSrc ts.length j := by
          simp only [slotSrc]
          omega
        have hlt : slotSrc ts.length j < ts.length := by
          simp only [slotSrc]
          omega
        rw [hidx, List.getD_append _ _ _ _ hlt]
      · have h4 : ¬ j < min (ts.length + 1) 15 := by omega
        rw [if_neg h3, if_neg h4]

/-- The wrap-aware logical-to-physical mapping of msh.c, characterized against
the abstract append history: logical index `i` resolves to the `i`-th oldest
currently visible text, and to NULL when fewer than `i + 1` records are
visible. -/
theorem logicalToText_appendAll (ts : List String) (i : Nat) (hi : i < 15) :
    logicalToText (appendAll ts) i =
      if i < min ts.length 15
      then some (ts.getD (ts.length - min ts.length 15 + i) "")
      else none := by
  simp only [logicalToText, ShellState.histAt, HISTORY_SIZE]
  rcases Nat.eq_zero_or_pos ts.length with hk | hk1
  · -- empty history: the wrap test fails, slot i is free
    have hhp : (appendAll ts).hist_ptr = -1 := by
      rw [appendAll_hist_ptr, if_pos hk]
    have hslot0 : ((appendAll ts).history 0).cmd = none := by
      rw [appendAll_history ts 0 (by omega)]
      rw [if_neg (by omega)]
    rw [hhp, if_neg (by simp [hslot0])]
    have htn : ((i : Nat) : Int).toNat = i := by omega
    rw [htn, appendAll_history ts i hi, if_neg (by omega), if_neg (by omega)]
  · have hhp : (appendAll ts).hist_ptr = (((ts.length - 1) % 15 : Nat) : Int) := by
      rw [appendAll_hist_ptr, if_neg (by omega)]
    rcases Nat.lt_or_ge ts.length 15 with hk15 | hk15
    · -- not yet wrapped: 1 ≤ k ≤ 14, the slot after the cursor is free
      have hr : (ts.length - 1) % 15 = ts.length - 1 := by omega
      have htn : ((((ts.length - 1) % 15 : Nat) : Int) + 1).toNat = ts.length := by omega
      have hslot : ((appendAll ts).history ts.length).cmd = none := by
        rw [appendAll_history ts ts.length (by omega), if_neg (by omega)]
      rw [hhp, if_neg (by rw [htn]; simp [hslot])]
      have htn2 : ((i : Nat) : Int).toNat = i := by omega
      rw [htn2, appendAll_history ts i hi]
      by_cases h3 : i < min ts.length 15
      · rw [if_pos h3, if_pos h3]
        have : slotSrc ts.length i = ts.length - min ts.length 15 + i := by
          simp only [slotSrc]; omega
        rw [this]
      · rw [if_neg h3, if_neg h3]
    · -- full buffer
      by_cases hr14 : (ts.length - 1) % 15 = 14
      · -- cursor at the bottom of the array: no offset needed
        rw [hhp, hr14, if_neg (by simp)]
        have htn2 : ((i : Nat) : Int).toNat = i := by omega
        rw [htn2, appendAll_history ts i hi]
        have h3 : i < min ts.length 15 := by omega
        rw [if_pos h3, if_pos h3]
        have : slotSrc ts.length i = ts.length - min ts.length 15 + i := by
          simp only [slotSrc]; omega
        rw [this]
      · -- wrapped with the cursor in the middle: offset by hist_ptr + 1
        have hrlt : (ts.length - 1) % 15 < 14 := by omega
        have htn : ((((ts.length - 1) % 15 : Nat) : Int) + 1).toNat =
            (ts.length - 1) % 15 + 1 := by omega
        have hslot : ((appendAll ts).history ((ts.length - 1) % 15 + 1)).cmd =
            some (ts.getD (slotSrc ts.length ((ts.length - 1) % 15 + 1)) "") := by
          rw [appendAll_history ts _ (by omega), if_pos (by omega)]
        have hcond : ((((ts.length - 1) % 15 : Nat) : Int) ≠ ((15 : Nat) : Int) - 1 ∧
            ((appendAll ts).history (((((ts.length - 1) % 15 : Nat) : Int) + 1)).toNat).cmd ≠
              none) := by
          constructor
          · omega
          · rw [htn, hslot]; simp
        rw [hhp, if_pos hcond]
        have h3 : i < min ts.length 15 := by omega
        rw [if_pos h3]
        by_cases h15 : ((15 : Nat) : Int) ≤ (i : Int) + (((ts.length - 1) % 15 : Nat) : Int) + 1
        · rw [if_pos h15]
          have htn3 : ((i : Int) + (((ts.length - 1) % 15 : Nat) : Int) + 1 -
              ((15 : Nat) : Int)).toNat = i + (ts.length - 1) % 15 + 1 - 15 := by omega
          rw [htn3, appendAll_history ts _ (by omega), if_pos (by omega)]
          have : slotSrc ts.length (i + (ts.length - 1) % 15 + 1 - 15) =
              ts.length - min ts.length 15 + i := by
            simp only [slotSrc]; omega
          rw [this]
        · rw [if_neg h15]
          have htn3 : ((i : Int) + (((ts.length - 1) % 15 : Nat) : Int) + 1).toNat =
              i + (ts.length - 1) % 15 + 1 := by omega
          rw [htn3, appendAll_history ts _ (by omega), if_pos (by omega)]
          have : slotSrc ts.length (i + (ts.length - 1) % 15 + 1) =
              ts.length - min ts.length 15 + i := by
            simp only [slotSrc]; omega
          rw [this]

theorem length_filter_range_lt (n m : Nat) (h : m ≤ n) :
    ((List.range n).filter (fun j => decide (j < m))).length = m := by
  induction n with
  | zero =>
    simp only [List.range_zero, List.filter_nil, List.length_nil]
    omega
  | succ n ih =>
    by_cases hm : m ≤ n
    · have hlast : List.filter (fun j => decide (j < m)) [n] = [] := by
        simp only [List.filter_cons, List.filter_nil]
        rw [if_neg (by simp; omega)]
      rw [List.range_succ, List.filter_append, hlast, List.length_append, ih hm]
      simp
    · have hm2 : m = n + 1 := by omega
      subst hm2
      have hall : List.filter (fun j => decide (j < n + 1)) (List.range (n + 1)) =
          List.range (n + 1) := by
        apply List.filter_eq_self.mpr
        intro a ha
        simp only [List.mem_range] at ha
        simpa using ha
      rw [hall, List.length_range]

theorem countVisible_appendAll (ts : List String) :
    countVisible (appendAll ts) = min ts.length 15 := by
  unfold countVisible
  simp only [HISTORY_SIZE]
  have hcong : List.filter (fun j => ((appendAll ts).history j).cmd.isSome) (List.range 15) =
      List.filter (fun j => decide (j < min ts.length 15)) (List.range 15) := by
    apply List.filter_congr
    intro j hj
    simp only [List.mem_range] at hj
    rw [appendAll_history ts j hj]
    by_cases h3 : j < min ts.length 15
    · rw [if_pos h3]
      simp [h3]
    · rw [if_neg h3]
      simp [h3]
  rw [hcong, length_filter_range_lt 15 _ (by omega)]

theorem countVisible_le (s : ShellState) : countVisible s ≤ 15 := by
  unfold countVisible
  simp only [HISTORY_SIZE]
  calc ((List.range 15).filter (fun j => (s.history j).cmd.isSome)).length
      ≤ (List.range 15).length := List.length_filter_le _ _
    _ = 15 := List.length_range 15

/-! ### Dispatch lemmas -/

theorem mem_textsOf {s : ShellState} {t : String} :
    t ∈ textsOf s ↔ ∃ j, j < 15 ∧ (s.history j).cmd = some t := by
  simp only [textsOf, HISTORY_SIZE, List.mem_filterMap, List.mem_range]

theorem textsOf_update {p : Nat} {r : Command} {t : String}
    (s s' : ShellState) (hs : s'.history = Function.update s.history p r)
    (hmem : t ∈ textsOf s') : r.cmd = some t ∨ t ∈ textsOf s := by
  rw [mem_textsOf] at hmem
  obtain ⟨j, hj, hcmd⟩ := hmem
  rw [hs] at hcmd
  by_cases hjp : j = p
  · subst hjp
    rw [Function.update_same] at hcmd
    exact Or.inl hcmd
  · rw [Function.update_noteq hjp] at hcmd
    exact Or.inr (mem_textsOf.mpr ⟨j, hj, hcmd⟩)

theorem nextPtr_bounds {s : ShellState} (h1 : -1 ≤ s.hist_ptr) (h2 : s.hist_ptr < 15) :
    0 ≤ nextPtr s ∧ nextPtr s < 15 := by
  rw [nextPtr]
  simp only [HISTORY_SIZE]
  split_ifs <;> omega

theorem Inv_appendRecord {s : ShellState} {line : String}
    (hInv : Inv s) (hok : storedOk line) : Inv (appendRecord s line) := by
  obtain ⟨h1, h2, h3, _⟩ := hInv
  obtain ⟨hp1, hp2⟩ := nextPtr_bounds h1 h2
  refine ⟨?_, ?_, ?_, ?_⟩
  · rw [appendRecord_hist_ptr]; omega
  · rw [appendRecord_hist_ptr]; simp only [HISTORY_SIZE]; omega
  · intro t ht
    rcases textsOf_update s (appendRecord s line) (appendRecord_history s line) ht with h | h
    · simp only [Option.some.injEq] at h
      subst h
      exact hok
    · exact h3 t h
  · intro _
    show (Function.update s.history (nextPtr s).toNat
        { cmd := some line, pid := -1 } (nextPtr s).toNat).cmd ≠ none
    rw [Function.update_same]
    simp

theorem textsOf_appendRecord {s : ShellState} {line t : String}
    (h : t ∈ textsOf (appendRecord s line)) : t ∈ textsOf s ∨ t = line := by
  rcases textsOf_update s (appendRecord s line) (appendRecord_history s line) h with h | h
  · simp only [Option.some.injEq] at h
    exact Or.inr h.symm
  · exact Or.inl h

theorem logicalToText_mem {s : ShellState} {n : Nat} {t : String}
    (h1 : -1 ≤ s.hist_ptr) (h2 : s.hist_ptr < 15) (hn : n < 15)
    (h : logicalToText s n = some t) : t ∈ textsOf s := by
  simp only [logicalToText, ShellState.histAt, HISTORY_SIZE] at h
  split_ifs at h with hA hB
  · exact mem_textsOf.mpr ⟨_, by omega, h⟩
  · exact mem_textsOf.mpr ⟨_, by omega, h⟩
  · exact mem_textsOf.mpr ⟨_, by omega, h⟩

/-- One dispatch preserves the reachability invariant, and the only text it
can add to the log is the dispatched line itself. -/
theorem run_preserves (env : SysEnv) :
    ∀ (fuel : Nat) (s : ShellState) (line : String),
      Inv s →
      Inv ((runCommandString env fuel s line).1) ∧
      ∀ t ∈ textsOf ((runCommandString env fuel s line).1), t ∈ textsOf s ∨ t = line := by
  intro fuel
  induction fuel with
  | zero =>
    intro s line hInv
    exact ⟨hInv, fun t ht => Or.inl ht⟩
  | succ fuel ih =>
    intro s line hInv
    rcases hft : (parse_tokens line).headD none with _ | cmd
    · simp only [runCommandString, hft]
      exact ⟨hInv, fun t ht => Or.inl ht⟩
    · simp only [runCommandString, hft]
      by_cases h1 : cmd.toList.headD ' ' = '!'
      · rw [if_pos h1]
        by_cases h2 : (cmd.toList.drop 1).headD ' ' = '!'
        · rw [if_pos h2]
          by_cases h3 : s.hist_ptr = -1
          · rw [if_pos h3]
            exact ⟨hInv, fun t ht => Or.inl ht⟩
          · rw [if_neg h3]
            rcases hc : (s.histAt s.hist_ptr).cmd with _ | t0
            · exact ⟨hInv, fun t ht => Or.inl ht⟩
            · have ht0 : t0 ∈ textsOf s := by
                apply mem_textsOf.mpr
                obtain ⟨hb1, hb2, _, _⟩ := hInv
                refine ⟨s.hist_ptr.toNat, ?_, hc⟩
                simp only [HISTORY_SIZE] at hb2
                omega
              obtain ⟨ih1, ih2⟩ := ih s t0 hInv
              refine ⟨ih1, fun t ht => ?_⟩
              rcases ih2 t ht with h | h
              · exact Or.inl h
              · subst h
                exact Or.inl ht0
        · rw [if_neg h2]
          by_cases hv : (strtoul10 (cmd.toList.drop 1)).2 ≠ [] ∨
              (HISTORY_SIZE : Nat) ≤ (strtoul10 (cmd.toList.drop 1)).1
          · rw [if_pos hv]
            exact ⟨hInv, fun t ht => Or.inl ht⟩
          · rw [if_neg hv]
            rcases hlt : logicalToText s (strtoul10 (cmd.toList.drop 1)).1 with _ | t0
            · exact ⟨hInv, fun t ht => Or.inl ht⟩
            · have ht0 : t0 ∈ textsOf s := by
                obtain ⟨hb1, hb2, _, _⟩ := hInv
                apply logicalToText_mem hb1 (by simpa [HISTORY_SIZE] using hb2) ?_ hlt
                simp only [HISTORY_SIZE] at hv
                omega
              obtain ⟨ih1, ih2⟩ := ih s t0 hInv
              refine ⟨ih1, fun t ht => ?_⟩
              rcases ih2 t ht with h | h
              · exact Or.inl h
              · subst h
                exact Or.inl ht0
      · rw [if_neg h1]
        have hok : storedOk line := by
          obtain ⟨hne, hhead, hws⟩ := firstTok_some hft
          exact ⟨hws, by rw [← hhead]; exact h1⟩
        have hInv1 : Inv (appendRecord s line) := Inv_appendRecord hInv hok
        have hsub1 : ∀ t ∈ textsOf (appendRecord s line), t ∈ textsOf s ∨ t = line :=
          fun t ht => textsOf_appendRecord ht
        by_cases hh : cmd = "history"
        · rw [if_pos hh]
          exact ⟨hInv1, hsub1⟩
        · rw [if_neg hh]
          by_cases hcd : cmd = "cd"
          · rw [if_pos hcd]
            by_cases h2a : (parse_tokens line).getD 2 none ≠ none
            · rw [if_pos h2a]
              exact ⟨hInv1, hsub1⟩
            · rw [if_neg h2a]
              split
              · exact ⟨hInv1, hsub1⟩
              · split
                · exact ⟨hInv1, hsub1⟩
                · exact ⟨hInv1, hsub1⟩
          · rw [if_neg hcd]
            -- external launch: the just-appended record gains the pid
            have hr2 : ({ (appendRecord s line).history (appendRecord s line).hist_ptr.toNat with
                pid := env.pids (appendRecord s line).launches }).cmd = some line := by
              rw [appendRecord_history]
              show (Function.update s.history (nextPtr s).toNat
                  { cmd := some line, pid := -1 } ((appendRecord s line).hist_ptr.toNat)).cmd = _
              rw [appendRecord_hist_ptr, Function.update_same]
            constructor
            · obtain ⟨hb1, hb2, hb3, _⟩ := hInv1
              refine ⟨hb1, hb2, ?_, ?_⟩
              · intro t ht
                rcases textsOf_update (appendRecord s line) _ rfl ht with h | h
                · rw [hr2] at h
                  simp only [Option.some.injEq] at h
                  subst h
                  exact hok
                · exact hb3 t h
              · intro _
                show (Function.update (appendRecord s line).history
                    (appendRecord s line).hist_ptr.toNat _
                    ((appendRecord s line).hist_ptr.toNat)).cmd ≠ none
                rw [Function.update_same, hr2]
                simp
            · intro t ht
              rcases textsOf_update (appendRecord s line) _ rfl ht with h | h
              · rw [hr2] at h
                simp only [Option.some.injEq] at h
                subst h
                exact Or.inr rfl
              · exact hsub1 t h

theorem Inv_initState : Inv initState := by
  refine ⟨by norm_num [initState], by norm_num [initState, HISTORY_SIZE], ?_, ?_⟩
  · intro t ht
    rw [mem_textsOf] at ht
    obtain ⟨j, _, hj⟩ := ht
    simp [initState] at hj
  · intro h
    simp [initState] at h

theorem Inv_mainStep (env : SysEnv) (fuel : Nat) (s : ShellState) (line : String)
    (h : Inv s) : Inv ((mainStep env fuel s line).1) := by
  rw [mainStep]
  split
  · exact h
  · split
    · exact h
    · split
      · exact h
      · exact (run_preserves env fuel s line h).1

theorem Inv_runLines (env : SysEnv) (fuel : Nat) (lines : List String) :
    Inv (runLines env fuel lines) := by
  rw [runLines]
  have hgen : ∀ (ls : List String) (s : ShellState), Inv s →
      Inv (ls.foldl (fun s l => (mainStep env fuel s l).1) s) := by
    intro ls
    induction ls with
    | nil => intro s h; exact h
    | cons l ls ih => intro s h; exact ih _ (Inv_mainStep env fuel s l h)
  exact hgen lines initState Inv_initState

/-- A text the dispatcher has stored can itself be tokenized: its first word
exists and does not begin with `!`. -/
theorem storedOk_firstTok {t : String} (h : storedOk t) :
    ∃ w, firstTok t = some w ∧ w.toList.headD ' ' ≠ '!' := by
  obtain ⟨hws, hbang⟩ := h
  rcases hl : t.toList with _ | ⟨c, rest⟩
  · rw [hl] at hws
    simp [isWS] at hws
  · rw [hl] at hws hbang
    simp only [List.headD_cons] at hws hbang
    rw [firstTok_eq, hl, List.takeWhile_cons, hws]
    simp only [Bool.not_false, if_true]
    rw [mkToken_cons]
    refine ⟨_, rfl, ?_⟩
    simpa using hbang

/-- Dispatching a line whose first word does not begin with `!` appends
exactly one record holding that line — before any further interpretation —
initially carrying pid -1; only an external launch then attaches the
launcher's pid to that same record, and no other slot is touched. -/
theorem run_nonbang (env : SysEnv) (fuel : Nat) (s : ShellState) (line cmd : String)
    (hft : firstTok line = some cmd) (h1 : ¬ cmd.toList.headD ' ' = '!') :
    (runCommandString env (fuel + 1) s line).1.hist_ptr = nextPtr s ∧
    ((runCommandString env (fuel + 1) s line).1.history (nextPtr s).toNat).cmd = some line ∧
    (∀ j, j ≠ (nextPtr s).toNat →
      (runCommandString env (fuel + 1) s line).1.history j = s.history j) ∧
    ((cmd = "history" ∨ cmd = "cd") →
      ((runCommandString env (fuel + 1) s line).1.history (nextPtr s).toNat).pid = -1) ∧
    (cmd ≠ "history" → cmd ≠ "cd" →
      ((runCommandString env (fuel + 1) s line).1.history (nextPtr s).toNat).pid =
          env.pids s.launches ∧
      Event.launched (parse_tokens line) (env.pids s.launches) ∈
          (runCommandString env (fuel + 1) s line).2) := by
  have hft2 : (parse_tokens line).headD none = some cmd := hft
  simp only [runCommandString, hft2]
  rw [if_neg h1]
  by_cases hh : cmd = "history"
  · rw [if_pos hh]
    refine ⟨appendRecord_hist_ptr s line, ?_, ?_, ?_, ?_⟩
    · rw [appendRecord_history, Function.update_same]
    · intro j hj
      rw [appendRecord_history, Function.update_noteq hj]
    · intro _
      rw [appendRecord_history, Function.update_same]
    · intro hc _
      exact absurd hh hc
  · rw [if_neg hh]
    have hB : ((appendRecord s line).history (nextPtr s).toNat).cmd = some line := by
      rw [appendRecord_history, Function.update_same]
    have hC : ∀ j, j ≠ (nextPtr s).toNat →
        (appendRecord s line).history j = s.history j := by
      intro j hj
      rw [appendRecord_history, Function.update_noteq hj]
    have hD : ((appendRecord s line).history (nextPtr s).toNat).pid = -1 := by
      rw [appendRecord_history, Function.update_same]
    by_cases hcd : cmd = "cd"
    · rw [if_pos hcd]
      split
      · exact ⟨appendRecord_hist_ptr s line, hB, hC, fun _ => hD, fun _ hc2 => absurd hcd hc2⟩
      · split
        · exact ⟨appendRecord_hist_ptr s line, hB, hC, fun _ => hD, fun _ hc2 => absurd hcd hc2⟩
        · split
          · exact ⟨appendRecord_hist_ptr s line, hB, hC, fun _ => hD,
              fun _ hc2 => absurd hcd hc2⟩
          · exact ⟨appendRecord_hist_ptr s line, hB, hC, fun _ => hD,
              fun _ hc2 => absurd hcd hc2⟩
    · rw [if_neg hcd]
      refine ⟨appendRecord_hist_ptr s line, ?_, ?_, ?_, ?_⟩
      · simp only [appendRecord_hist_ptr, Function.update_same]
        exact hB
      · intro j hj
        simp only [appendRecord_hist_ptr, Function.update_noteq hj]
        exact hC j hj
      · intro hor
        rcases hor with h | h
        · exact absurd h hh
        · exact absurd h hcd
      · intro _ _
        constructor
        · simp only [appendRecord_hist_ptr, Function.update_same, appendRecord_launches]
        · exact List.mem_singleton.mpr rfl

/-! ### Claim theorems -/

/-- C1: for a log with exactly `m = min k 15` visible records after `k`
appends, resolving logical index `i < m` through the dispatcher's wrap-aware
index arithmetic yields the `i`-th appended record among the currently
visible set (oldest first), and resolving any `i` with `m ≤ i < 15` reports
not-in-history (NULL). -/
theorem history_index_mapping (texts : List String) (i : Nat) :
    countVisible (appendAll texts) = min texts.length 15 ∧
    (i < min texts.length 15 →
      logicalToText (appendAll texts) i =
        some (texts.getD (texts.length - min texts.length 15 + i) "")) ∧
    (min texts.length 15 ≤ i → i < 15 →
      logicalToText (appendAll texts) i = none) := by
  refine ⟨countVisible_appendAll texts, ?_, ?_⟩
  · intro h
    rw [logicalToText_appendAll texts i (by omega), if_pos h]
  · intro h1 h2
    rw [logicalToText_appendAll texts i h2, if_neg (by omega)]

theorem history_index_mapping_witness :
    1 < min (["echo a\n", "echo b\n"] : List String).length 15 ∧
    logicalToText (appendAll ["echo a\n", "echo b\n"]) 1 = some "echo b\n" := by
  refine ⟨by decide, ?_⟩
  have h := (history_index_mapping ["echo a\n", "echo b\n"] 1).2.1 (by decide)
  exact h

/-- C3: with at least C + 1 = 16 appended commands the number of visible
records is exactly C = 15 (and never exceeds 15 after any prefix), the slot
the next append would overwrite is precisely the slot holding the oldest
visible record, appending touches exactly that slot, and after `k` appends
the oldest record present is the `(k - 15)`-th appended one (0-based), i.e.
the `(k - C + 1)`-th in 1-based counting. -/
theorem capacity_eviction (texts : List String) (h16 : 16 ≤ texts.length) :
    countVisible (appendAll texts) = 15 ∧
    (∀ pre post : List String, texts = pre ++ post → countVisible (appendAll pre) ≤ 15) ∧
    ((appendAll texts).histAt (nextPtr (appendAll texts))).cmd =
      logicalToText (appendAll texts) 0 ∧
    (∀ t, ((appendAll (texts ++ [t])).history (nextPtr (appendAll texts)).toNat).cmd =
        some t ∧
      ∀ j, j < 15 → j ≠ (nextPtr (appendAll texts)).toNat →
        (appendAll (texts ++ [t])).history j = (appendAll texts).history j) ∧
    logicalToText (appendAll texts) 0 = some (texts.getD (texts.length - 15) "") := by
  have hmin : min texts.length 15 = 15 := by omega
  have hold : logicalToText (appendAll texts) 0 =
      some (texts.getD (texts.length - 15) "") := by
    rw [logicalToText_appendAll texts 0 (by omega), if_pos (by omega)]
    have hidx : texts.length - min texts.length 15 + 0 = texts.length - 15 := by omega
    rw [hidx]
  refine ⟨?_, ?_, ?_, ?_, hold⟩
  · rw [countVisible_appendAll texts, hmin]
  · intro pre post _
    exact countVisible_le (appendAll pre)
  · show ((appendAll texts).history (nextPtr (appendAll texts)).toNat).cmd = _
    rw [nextPtr_appendAll, appendAll_history texts _ (by omega), if_pos (by omega), hold]
    have hidx : slotSrc texts.length (texts.length % 15) = texts.length - 15 := by
      simp only [slotSrc]
      omega
    rw [hidx]
  · intro t
    constructor
    · rw [appendAll_append, appendRecord_history, Function.update_same]
    · intro j _ hj
      rw [appendAll_append, appendRecord_history, Function.update_noteq hj]

theorem capacity_eviction_witness :
    16 ≤ (List.replicate 16 "x\n").length ∧
    countVisible (appendAll (List.replicate 16 "x\n")) = 15 ∧
    logicalToText (appendAll (List.replicate 16 "x\n")) 0 = some "x\n" := by
  refine ⟨by decide, ?_, ?_⟩
  · exact (capacity_eviction (List.replicate 16 "x\n") (by decide)).1
  · exact (capacity_eviction (List.replicate 16 "x\n") (by decide)).2.2.2.2

/-- C7: every line whose first word does not begin with `!` is appended to the
history before any further interpretation: after the dispatch the cursor
points at the new record, that record holds exactly the dispatched line, no
other slot is touched, a `history` or `cd` record keeps the pid sentinel -1,
and only an external dispatch attaches the launcher's returned pid to exactly
the just-appended record. -/
theorem append_before_dispatch (env : SysEnv) (fuel : Nat) (s : ShellState)
    (line cmd : String) (hft : firstTok line = some cmd)
    (h1 : ¬ cmd.toList.headD ' ' = '!') :
    (runCommandString env (fuel + 1) s line).1.hist_ptr = nextPtr s ∧
    ((runCommandString env (fuel + 1) s line).1.histAt (nextPtr s)).cmd = some line ∧
    (∀ j, j ≠ (nextPtr s).toNat →
      (runCommandString env (fuel + 1) s line).1.history j = s.history j) ∧
    ((cmd = "history" ∨ cmd = "cd") →
      ((runCommandString env (fuel + 1) s line).1.histAt (nextPtr s)).pid = -1) ∧
    (cmd ≠ "history" → cmd ≠ "cd" →
      ((runCommandString env (fuel + 1) s line).1.histAt (nextPtr s)).pid =
        env.pids s.launches ∧
      Event.launched (parse_tokens line) (env.pids s.launches) ∈
        (runCommandString env (fuel + 1) s line).2) :=
  run_nonbang env fuel s line cmd hft h1

theorem append_before_dispatch_witness :
    firstTok "ls -l\n" = some "ls" ∧
    ((runCommandString env0 2 initState "ls -l\n").1.histAt (nextPtr initState)).cmd =
      some "ls -l\n" ∧
    ((runCommandString env0 2 initState "ls -l\n").1.histAt (nextPtr initState)).pid =
      100 := by
  refine ⟨by decide, ?_, ?_⟩
  · exact (append_before_dispatch env0 1 initState "ls -l\n" "ls" (by decide)
      (by decide)).2.1
  · exact ((append_before_dispatch env0 1 initState "ls -l\n" "ls" (by decide)
      (by decide)).2.2.2.2 (by decide) (by decide)).1

/-- C9 counterexample: the line " \n" (a space then newline) is not exactly a
single newline, yet tokenization leaves the no-value sentinel in the first
token slot, and the read-eval loop's quit comparison dereferences NULL — the
sentinel-dereference branch is reachable, refuting the claim. -/
theorem quit_check_cex :
    (" \n" : String) ≠ "\n" ∧ firstTok " \n" = none ∧
    (mainStep env0 1 initState " \n").2.1 = [Event.nullDeref] := by
  refine ⟨by decide, by decide, by decide⟩

/-- C9 amended: for every input line whose FIRST CHARACTER is not tokenizing
whitespace, the first token slot holds an actual (non-empty) word, and the
quit check compares that word — the sentinel branch is not taken.  (Lines
consisting of whitespace other than a single bare newline do reach the
sentinel dereference, as the counterexample shows.) -/
theorem quit_check_amended (env : SysEnv) (fuel : Nat) (s : ShellState) (line : String)
    (h : isWS (line.toList.headD ' ') = false) :
    ∃ w, firstTok line = some w ∧ w ≠ "" ∧
      mainStep env fuel s line =
        (if w = "quit" ∨ w = "exit" then (s, [], true)
         else ((runCommandString env fuel s line).1, (runCommandString env fuel s line).2,
           false)) := by
  rcases hl : line.toList with _ | ⟨c, rest⟩
  · rw [hl] at h
    simp [isWS] at h
  · rw [hl] at h
    simp only [List.headD_cons] at h
    have hw : firstTok line = some (String.mk (c ::
        (rest.takeWhile (fun x => !isWS x)).take (MAX_COMMAND_SIZE - 1))) := by
      rw [firstTok_eq, hl, List.takeWhile_cons, h]
      simp only [Bool.not_false, if_true]
      exact mkToken_cons c _
    refine ⟨_, hw, ?_, ?_⟩
    · intro he
      have := congrArg String.length he
      simp [String.length] at this
    · have hnl : ¬ (line.toList.headD ' ' = '\n') := by
        rw [hl]
        simp only [List.headD_cons]
        intro hq
        rw [hq] at h
        simp [isWS] at h
      rw [mainStep, if_neg hnl]
      have hw2 : (parse_tokens line).headD none = some (String.mk (c ::
          (rest.takeWhile (fun x => !isWS x)).take (MAX_COMMAND_SIZE - 1))) := hw
      simp only [hw2]

theorem quit_check_amended_witness :
    isWS (("ls\n" : String).toList.headD ' ') = false ∧
    firstTok "ls\n" = some "ls" ∧ ("ls" : String) ≠ "" ∧
    mainStep env0 1 initState "ls\n" =
      ((runCommandString env0 1 initState "ls\n").1,
        (runCommandString env0 1 initState "ls\n").2, false) := by
  refine ⟨by decide, by decide, by decide, ?_⟩
  obtain ⟨w, hw, hne, hms⟩ := quit_check_amended env0 1 initState "ls\n" (by decide)
  have hfl : firstTok "ls\n" = some "ls" := by decide
  have hws : w = "ls" := Option.some.inj (hw.symm.trans hfl)
  subst hws
  rw [hms, if_neg (by decide)]

/-- C10: the line consisting of just `!` is NOT an invalid reference: its
remainder is the empty string, `strtoul` parses it as 0 with `endp` at the
terminator, so it resolves logical index 0 — the oldest currently visible
command — or reports not-in-history on an empty log. -/
theorem bare_bang_index_zero (env : SysEnv) (fuel : Nat) (texts : List String)
    (line : String) (hft : firstTok line = some "!") :
    (texts.length = 0 →
      runCommandString env (fuel + 1) (appendAll texts) line =
        (appendAll texts, [Event.notInHistory])) ∧
    (0 < texts.length →
      logicalToText (appendAll texts) 0 =
        some (texts.getD (texts.length - min texts.length 15) "") ∧
      runCommandString env (fuel + 1) (appendAll texts) line =
        runCommandString env fuel (appendAll texts)
          (texts.getD (texts.length - min texts.length 15) "")) := by
  have hft2 : (parse_tokens line).headD none = some "!" := hft
  have hbang : ("!" : String).toList.headD ' ' = '!' := by decide
  have hrest : ¬ ((("!" : String).toList.drop 1).headD ' ' = '!') := by decide
  have hstr : strtoul10 (("!" : String).toList.drop 1) = (0, []) := by decide
  constructor
  · intro hk
    have h0 : logicalToText (appendAll texts) 0 = none := by
      rw [logicalToText_appendAll texts 0 (by omega), if_neg (by omega)]
    simp only [runCommandString, hft2]
    rw [if_pos hbang, if_neg hrest]
    simp only [hstr]
    rw [if_neg (by simp [HISTORY_SIZE]), h0]
  · intro hk
    have h0 : logicalToText (appendAll texts) 0 =
        some (texts.getD (texts.length - min texts.length 15) "") := by
      rw [logicalToText_appendAll texts 0 (by omega), if_pos (by omega)]
      rw [Nat.add_zero]
    refine ⟨h0, ?_⟩
    simp only [runCommandString, hft2]
    rw [if_pos hbang, if_neg hrest]
    simp only [hstr]
    rw [if_neg (by simp [HISTORY_SIZE]), h0]

theorem bare_bang_index_zero_witness :
    firstTok "!\n" = some "!" ∧ 0 < (["echo hi\n"] : List String).length ∧
    logicalToText (appendAll ["echo hi\n"]) 0 = some "echo hi\n" ∧
    runCommandString env0 2 (appendAll ["echo hi\n"]) "!\n" =
      runCommandString env0 1 (appendAll ["echo hi\n"]) "echo hi\n" := by
  have h := (bare_bang_index_zero env0 1 ["echo hi\n"] "!\n" (by decide)).2 (by decide)
  exact ⟨by decide, by decide, h.1, h.2⟩

/-- C4 counterexample: tokenization does NOT merge runs of whitespace.  In
`"a  b\n"` the empty word between the two spaces occupies token slot 1 as the
sentinel while `b` lands in slot 2; and a line with 11 words separated by
double spaces yields only 5 actual words (not "exactly K = 10 tokens"),
because empty words consume token slots. -/
theorem tokenizer_cex :
    (parse_tokens "a  b\n").getD 1 none = none ∧
    (parse_tokens "a  b\n").getD 2 none = some "b" ∧
    (parse_tokens "a  b  c  d  e  f  g  h  i  j  k\n").filterMap (fun x => x) =
      ["a", "b", "c", "d", "e"] := by
  refine ⟨by decide, by decide, by decide⟩

/-- C4 amended: tokenization splits at every SINGLE whitespace character
(space, tab, newline); an empty word between adjacent delimiters is stored as
the no-value sentinel and still occupies a token slot; only the first K = 10
segments are kept, anything further silently discarded without a crash; each
kept word is truncated to 255 bytes; the token array always has exactly K
slots and every slot beyond the kept segments holds the explicit sentinel,
never a stale token from a previous parse. -/
theorem tokenizer_contract_amended (line : String) (j : Nat) :
    (parse_tokens line).length = MAX_NUM_ARGUMENTS ∧
    (parse_tokens line).getD j none =
      mkToken (((line.toList.splitOnP isWS).take MAX_NUM_ARGUMENTS).getD j []) ∧
    (MAX_NUM_ARGUMENTS ≤ j → (parse_tokens line).getD j none = none) := by
  refine ⟨parse_tokens_length line, parse_tokens_getD line j, ?_⟩
  intro hj
  rw [List.getD_eq_default]
  rw [parse_tokens_length line]
  exact hj

theorem tokenizer_contract_amended_witness :
    (parse_tokens "a  b\n").length = MAX_NUM_ARGUMENTS ∧
    (parse_tokens "a  b\n").getD 1 none =
      mkToken ((("a  b\n".toList.splitOnP isWS).take MAX_NUM_ARGUMENTS).getD 1 []) ∧
    MAX_NUM_ARGUMENTS ≤ 10 ∧ (parse_tokens "a  b\n").getD 10 none = none := by
  have h1 := tokenizer_contract_amended "a  b\n" 1
  have h10 := tokenizer_contract_amended "a  b\n" 10
  exact ⟨h1.1, h1.2.1, by decide, h10.2.2 (by decide)⟩

/-- C5 counterexample: the word `!!x` is not precisely `!!` (its remainder
after the leading `!` is `!x`, not `!`), yet the dispatcher enters the
bang-latest branch: on an empty history it reports not-in-history, not the
invalid-reference error that the claim's "exactly" would require. -/
theorem bang_latest_cex :
    firstTok "!!x\n" = some "!!x" ∧
    (runCommandString env0 2 initState "!!x\n").2 = [Event.notInHistory] ∧
    (runCommandString env0 2 initState "!!x\n").2 ≠ [Event.invalidRef "!x"] := by
  refine ⟨by decide, by decide, by decide⟩

/-- C5 amended: the dispatcher enters the BangLatest state exactly when the
SECOND CHARACTER of the first word is `!` (the word begins with `!!`, not
only when it is precisely `!!`).  In that state, with an empty history it
reports not-in-history with no execution and no append; otherwise it
re-tokenizes and recursively dispatches the most recent record's text, whose
own dispatch appends it as a new, distinct record in the next slot, leaving
the original record untouched. -/
theorem bang_latest_amended (env : SysEnv) (fuel : Nat) (s : ShellState)
    (line cmd : String) (hInv : Inv s) (hft : firstTok line = some cmd)
    (h1 : cmd.toList.headD ' ' = '!') (h2 : (cmd.toList.drop 1).headD ' ' = '!') :
    (s.hist_ptr = -1 →
      runCommandString env (fuel + 1) s line = (s, [Event.notInHistory])) ∧
    (s.hist_ptr ≠ -1 →
      ∃ t, (s.histAt s.hist_ptr).cmd = some t ∧
        runCommandString env (fuel + 1) s line = runCommandString env fuel s t ∧
        ∀ f : Nat,
          (runCommandString env (f + 1) s t).1.hist_ptr = nextPtr s ∧
          ((runCommandString env (f + 1) s t).1.histAt (nextPtr s)).cmd = some t ∧
          nextPtr s ≠ s.hist_ptr ∧
          (runCommandString env (f + 1) s t).1.histAt s.hist_ptr =
            s.histAt s.hist_ptr) := by
  have hft2 : (parse_tokens line).headD none = some cmd := hft
  constructor
  · intro h3
    simp only [runCommandString, hft2]
    rw [if_pos h1, if_pos h2, if_pos h3]
  · intro h3
    obtain ⟨hb1, hb2, hb3, hb4⟩ := hInv
    simp only [HISTORY_SIZE] at hb2
    rcases hc : (s.histAt s.hist_ptr).cmd with _ | t
    · exact absurd hc (hb4 h3)
    · refine ⟨t, rfl, ?_, ?_⟩
      · simp only [runCommandString, hft2]
        rw [if_pos h1, if_pos h2, if_neg h3, hc]
      · intro f
        have hok : storedOk t :=
          hb3 t (mem_textsOf.mpr ⟨s.hist_ptr.toNat, by omega, hc⟩)
        obtain ⟨w, hwft, hwns⟩ := storedOk_firstTok hok
        have hrn := run_nonbang env f s t w hwft hwns
        have hnp : nextPtr s ≠ s.hist_ptr := by
          rw [nextPtr]
          simp only [HISTORY_SIZE]
          split_ifs <;> omega
        have hj : s.hist_ptr.toNat ≠ (nextPtr s).toNat := by
          rw [nextPtr]
          simp only [HISTORY_SIZE]
          split_ifs <;> omega
        exact ⟨hrn.1, hrn.2.1, hnp, hrn.2.2.1 s.hist_ptr.toNat hj⟩

theorem bang_latest_amended_witness :
    Inv (appendAll ["ls\n"]) ∧ firstTok "!!\n" = some "!!" ∧
    (appendAll ["ls\n"]).hist_ptr ≠ -1 ∧
    runCommandString env0 2 (appendAll ["ls\n"]) "!!\n" =
      runCommandString env0 1 (appendAll ["ls\n"]) "ls\n" := by
  have hInvW : Inv (appendAll ["ls\n"]) := by
    refine ⟨by decide, by decide, ?_, by decide⟩
    intro t ht
    have he : textsOf (appendAll ["ls\n"]) = ["ls\n"] := by decide
    rw [he] at ht
    simp only [List.mem_singleton] at ht
    subst ht
    exact ⟨by decide, by decide⟩
  refine ⟨hInvW, by decide, by decide, ?_⟩
  have h := (bang_latest_amended env0 1 (appendAll ["ls\n"]) "!!\n" "!!" hInvW
    (by decide) (by decide) (by decide)).2 (by decide)
  obtain ⟨t, hc, hrun, _⟩ := h
  have hts : ((appendAll ["ls\n"]).histAt (appendAll ["ls\n"]).hist_ptr).cmd =
      some "ls\n" := by decide
  have ht : t = "ls\n" := (Option.some.inj (hts.symm.trans hc)).symm
  rw [ht] at hrun
  exact hrun

/-- C6 counterexample: for the line `!!9` the remainder R after the leading
`!` is `!9`, which is not `!`, so the claim requires an invalid-reference
report with no execution and nothing appended; but the code only tests the
second character and enters the bang-latest branch, re-launching the most
recent command and appending a new record. -/
theorem bang_index_validation_cex :
    (runCommandString env0 3 (runCommandString env0 2 initState "ls\n").1 "!!9\n").2 =
      [Event.launched [some "ls", none, none, none, none, none, none, none, none, none]
        101] ∧
    ((runCommandString env0 3 (runCommandString env0 2 initState "ls\n").1
        "!!9\n").1.histAt 1).cmd = some "ls\n" := by
  refine ⟨by decide, by decide⟩

/-- C6 amended: for every line `!R` where R does not BEGIN WITH `!`: if
strtoul parsing of R leaves unconsumed characters, or the parsed value N is
at least the capacity 15, the dispatcher reports an invalid reference; if R
parses completely to N < 15 but N is at least the number of visible records,
it reports not-in-history; in every such reference-error case the dispatch
aborts for that line with the state unchanged — nothing is appended. -/
theorem bang_index_validation_amended (env : SysEnv) (fuel : Nat) (texts : List String)
    (line : String) (rest : List Char)
    (hft : firstTok line = some (String.mk ('!' :: rest)))
    (hrest : ¬ (rest.headD ' ' = '!')) :
    ((strtoul10 rest).2 ≠ [] ∨ 15 ≤ (strtoul10 rest).1 →
      runCommandString env (fuel + 1) (appendAll texts) line =
        (appendAll texts, [Event.invalidRef (String.mk rest)])) ∧
    ((strtoul10 rest).2 = [] → (strtoul10 rest).1 < 15 →
      min texts.length 15 ≤ (strtoul10 rest).1 →
      runCommandString env (fuel + 1) (appendAll texts) line =
        (appendAll texts, [Event.notInHistory])) := by
  have hft2 : (parse_tokens line).headD none = some (String.mk ('!' :: rest)) := hft
  have h1 : (String.mk ('!' :: rest)).toList.headD ' ' = '!' := rfl
  have h2 : ¬ (((String.mk ('!' :: rest)).toList.drop 1).headD ' ' = '!') := hrest
  have hd : (String.mk ('!' :: rest)).toList.drop 1 = rest := rfl
  constructor
  · intro hv
    simp only [runCommandString, hft2]
    rw [if_pos h1, if_neg h2, hd]
    simp only [HISTORY_SIZE]
    rw [if_pos hv]
  · intro he hn hm
    have h0 : logicalToText (appendAll texts) (strtoul10 rest).1 = none := by
      rw [logicalToText_appendAll texts _ hn, if_neg (by omega)]
    have hcond : ¬ ((strtoul10 rest).2 ≠ [] ∨ 15 ≤ (strtoul10 rest).1) := by
      push_neg
      exact ⟨he, hn⟩
    simp only [runCommandString, hft2]
    rw [if_pos h1, if_neg h2, hd]
    simp only [HISTORY_SIZE]
    rw [if_neg hcond, h0]

theorem bang_index_validation_amended_witness :
    firstTok "!abc\n" = some (String.mk ('!' :: ['a', 'b', 'c'])) ∧
    ((strtoul10 ['a', 'b', 'c']).2 ≠ [] ∨ 15 ≤ (strtoul10 ['a', 'b', 'c']).1) ∧
    runCommandString env0 1 (appendAll []) "!abc\n" =
      (appendAll [], [Event.invalidRef (String.mk ['a', 'b', 'c'])]) ∧
    15 ≤ (strtoul10 "-18446744073709551616".toList).1 ∧
    runCommandString env0 1 (appendAll []) "!-18446744073709551616\n" =
      (appendAll [],
        [Event.invalidRef (String.mk "-18446744073709551616".toList)]) := by
  refine ⟨by decide, by decide, ?_, by decide, ?_⟩
  · exact (bang_index_validation_amended env0 0 [] "!abc\n" ['a', 'b', 'c'] (by decide)
      (by decide)).1 (by decide)
  · exact (bang_index_validation_amended env0 0 [] "!-18446744073709551616\n"
      "-18446744073709551616".toList (by decide) (by decide)).1 (by decide)

/-- C8 counterexample: `cd a  b c` passes three extra words to `cd`, yet no
argument-count error is reported and the working directory changes to `a`:
the double space leaves the sentinel in token slot 2, which is the only slot
the too-many-arguments check inspects. -/
theorem cd_semantics_cex :
    (runCommandString env1 2 initState "cd a  b c\n").2 = [] ∧
    (runCommandString env1 2 initState "cd a  b c\n").1.cwd = "a" ∧
    initState.cwd ≠ "a" := by
  refine ⟨by decide, by decide, by decide⟩

/-- C8 amended: dispatching a line whose first word is `cd` appends the line
and then: when token slot 2 holds a word (with single-space separation this
is exactly the two-or-more-extra-arguments case) an argument-count error is
reported and the directory is unchanged; otherwise the target is the word in
slot 1, or the HOME environment value when slot 1 is empty (an unset HOME
makes the change fail); a failing directory change reports the OS error and
the loop continues with the directory unchanged; the appended record keeps
the pid sentinel -1 in every case. -/
theorem cd_semantics_amended (env : SysEnv) (fuel : Nat) (s : ShellState) (line : String)
    (hft : firstTok line = some "cd") :
    ((parse_tokens line).getD 2 none ≠ none →
      runCommandString env (fuel + 1) s line =
        (appendRecord s line, [Event.cdTooManyArgs])) ∧
    ((parse_tokens line).getD 2 none = none →
      (∀ d, (parse_tokens line).getD 1 none = some d →
        (env.chdirOk d = true →
          runCommandString env (fuel + 1) s line =
            ({ appendRecord s line with cwd := d }, [])) ∧
        (env.chdirOk d = false →
          runCommandString env (fuel + 1) s line =
            (appendRecord s line, [Event.cdFailed (some d)]))) ∧
      ((parse_tokens line).getD 1 none = none →
        (∀ h, env.home = some h →
          (env.chdirOk h = true →
            runCommandString env (fuel + 1) s line =
              ({ appendRecord s line with cwd := h }, [])) ∧
          (env.chdirOk h = false →
            runCommandString env (fuel + 1) s line =
              (appendRecord s line, [Event.cdFailed (some h)]))) ∧
        (env.home = none →
          runCommandString env (fuel + 1) s line =
            (appendRecord s line, [Event.cdFailed none])))) ∧
    ((runCommandString env (fuel + 1) s line).1.histAt (nextPtr s)).pid = -1 := by
  have hft2 : (parse_tokens line).headD none = some "cd" := hft
  have h1 : ¬ (("cd" : String).toList.headD ' ' = '!') := by decide
  have hh : ¬ (("cd" : String) = "history") := by decide
  refine ⟨?_, ?_, ?_⟩
  · intro h2a
    simp only [runCommandString, hft2]
    rw [if_neg h1, if_neg hh, if_pos trivial, if_pos h2a]
  · intro h2a
    constructor
    · intro d hd
      constructor
      · intro hch
        simp only [runCommandString, hft2]
        rw [if_neg h1, if_neg hh, if_pos trivial, if_neg (fun hcon => hcon h2a), hd]
        simp only [hch]
        rfl
      · intro hch
        simp only [runCommandString, hft2]
        rw [if_neg h1, if_neg hh, if_pos trivial, if_neg (fun hcon => hcon h2a), hd]
        simp only [hch]
        rfl
    · intro hd
      constructor
      · intro h hhome
        constructor
        · intro hch
          simp only [runCommandString, hft2]
          rw [if_neg h1, if_neg hh, if_pos trivial, if_neg (fun hcon => hcon h2a), hd, hhome]
          simp only [hch]
          rfl
        · intro hch
          simp only [runCommandString, hft2]
          rw [if_neg h1, if_neg hh, if_pos trivial, if_neg (fun hcon => hcon h2a), hd, hhome]
          simp only [hch]
          rfl
      · intro hhome
        simp only [runCommandString, hft2]
        rw [if_neg h1, if_neg hh, if_pos trivial, if_neg (fun hcon => hcon h2a), hd, hhome]
  · exact (run_nonbang env fuel s line "cd" hft h1).2.2.2.1 (Or.inr rfl)

theorem cd_semantics_amended_witness :
    firstTok "cd x\n" = some "cd" ∧
    (parse_tokens "cd x\n").getD 2 none = none ∧
    (parse_tokens "cd x\n").getD 1 none = some "x" ∧
    runCommandString env0 1 initState "cd x\n" =
      (appendRecord initState "cd x\n", [Event.cdFailed (some "x")]) := by
  refine ⟨by decide, by decide, by decide, ?_⟩
  exact (((cd_semantics_amended env0 0 initState "cd x\n" (by decide)).2.1
    (by decide)).1 "x" (by decide)).2 (by decide)

/-- C2: for every sequence of read-eval-loop inputs, dispatching a line whose
first word begins with `!` never appends that line itself: every text in the
log after the dispatch was already in the log before it (only the resolved
text is re-appended through the normal append-then-dispatch cycle, against
the log state as it was before the dispatch), differs from the bang line, and
itself never begins with `!` — in particular after resolving `!3` the log
never contains a record whose text is the literal `!3`. -/
theorem bang_lines_never_appended (env : SysEnv) (fuel fuel2 : Nat)
    (lines : List String) (line cmd : String)
    (hft : firstTok line = some cmd) (hbang : cmd.toList.headD ' ' = '!') :
    ∀ t ∈ textsOf ((runCommandString env fuel2 (runLines env fuel lines) line).1),
      t ∈ textsOf (runLines env fuel lines) ∧ t ≠ line ∧
        t.toList.headD ' ' ≠ '!' := by
  have hInv : Inv (runLines env fuel lines) := Inv_runLines env fuel lines
  set s := runLines env fuel lines with hs
  have hlineBang : line.toList.headD ' ' = '!' := by
    obtain ⟨_, hhead, _⟩ := firstTok_some hft
    rw [← hhead]
    exact hbang
  have hmem : ∀ t ∈ textsOf ((runCommandString env fuel2 s line).1), t ∈ textsOf s := by
    cases fuel2 with
    | zero => exact fun t ht => ht
    | succ f =>
      intro t ht
      have hft2 : (parse_tokens line).headD none = some cmd := hft
      simp only [runCommandString, hft2] at ht
      rw [if_pos hbang] at ht
      by_cases h2 : (cmd.toList.drop 1).headD ' ' = '!'
      · rw [if_pos h2] at ht
        by_cases h3 : s.hist_ptr = -1
        · rw [if_pos h3] at ht
          exact ht
        · rw [if_neg h3] at ht
          rcases hc : (s.histAt s.hist_ptr).cmd with _ | t0
          · rw [hc] at ht
            exact ht
          · rw [hc] at ht
            have ht0 : t0 ∈ textsOf s := by
              obtain ⟨hb1, hb2, _, _⟩ := hInv
              simp only [HISTORY_SIZE] at hb2
              exact mem_textsOf.mpr ⟨s.hist_ptr.toNat, by omega, hc⟩
            rcases (run_preserves env f s t0 hInv).2 t ht with h | h
            · exact h
            · subst h
              exact ht0
      · rw [if_neg h2] at ht
        by_cases hv : (strtoul10 (cmd.toList.drop 1)).2 ≠ [] ∨
            (HISTORY_SIZE : Nat) ≤ (strtoul10 (cmd.toList.drop 1)).1
        · rw [if_pos hv] at ht
          exact ht
        · rw [if_neg hv] at ht
          rcases hlt : logicalToText s (strtoul10 (cmd.toList.drop 1)).1 with _ | t0
          · rw [hlt] at ht
            exact ht
          · rw [hlt] at ht
            have ht0 : t0 ∈ textsOf s := by
              obtain ⟨hb1, hb2, _, _⟩ := hInv
              simp only [HISTORY_SIZE] at hb2 hv
              exact logicalToText_mem hb1 (by omega) (by omega) hlt
            rcases (run_preserves env f s t0 hInv).2 t ht with h | h
            · exact h
            · subst h
              exact ht0
  intro t ht
  have h1 := hmem t ht
  obtain ⟨_, _, hstored, _⟩ := hInv
  have hok := hstored t h1
  refine ⟨h1, ?_, hok.2⟩
  intro he
  rw [he] at hok
  exact hok.2 hlineBang

theorem bang_lines_never_appended_witness :
    firstTok "!0\n" = some "!0" ∧
    "ls\n" ∈ textsOf ((runCommandString env0 3 (runLines env0 3 ["ls\n"]) "!0\n").1) ∧
    ("ls\n" ∈ textsOf (runLines env0 3 ["ls\n"]) ∧ ("ls\n" : String) ≠ "!0\n" ∧
      ("ls\n" : String).toList.headD ' ' ≠ '!') := by
  refine ⟨by decide, by decide, ?_⟩
  exact bang_lines_never_appended env0 3 3 ["ls\n"] "!0\n" "!0" (by decide) (by decide)
    "ls\n" (by decide)

end Msh
